import Mathlib

set_option autoImplicit false

/-!
Shallow embedding of the counter core of moe-counter-rs: the cache-aside
counter store of src/db_adpater.rs (SqliteClient, DBManager) together with
the sync-scheduler check of src/main.rs.  Machine integers (u64) are
modelled as Nat with explicit saturation at 2 ^ 64 - 1; the in-memory
HashMap is modelled as an association list; the sqlite table is a map from
keys to optional values, and the possible internal failures of the sqlite
calls (statement preparation, query, row decoding, upsert execution) are
modelled as fixed boolean oracles carried in the backend state.  A panic
of the Rust code is modelled by the outer Option of a result.
-/

namespace MoeCounter

/-- Counter keys are caller-supplied strings. -/
abbrev Key := String

/-- Largest value of the Rust type u64. -/
def U64MAX : Nat := 2 ^ 64 - 1

/-- Semantics of saturating_add 1 of u64 on the value range of u64. -/
def satAdd1 (v : Nat) : Nat := min (v + 1) U64MAX

/-- The in-memory counter cache, a HashMap from String to u64 in the source,
modelled as an association list; reachable caches have pairwise distinct
keys. -/
abbrev Cache := List (Key × Nat)

/-- Cache lookup, as HashMap get: the value of the first entry with the
requested key. -/
def cacheGet : Cache → Key → Option Nat
  | [], _ => none
  | (k1, v) :: rest, k => if k1 = k then some v else cacheGet rest k

/-- Cache insertion, as HashMap insert: replaces the entry of the key in
place when present, otherwise appends a new entry. -/
def cacheInsert : Cache → Key → Nat → Cache
  | [], k, v => [(k, v)]
  | (k1, v1) :: rest, k, v =>
    if k1 = k then (k, v) :: rest else (k1, v1) :: cacheInsert rest k v

/-- The durable backend of SqliteClient: the table contents (a map from key
to optional stored u64 value) together with deterministic fault oracles for
the three internal failure points of SqliteClient get (statement
preparation, query_map, row decoding) and for the upsert execution of
SqliteClient set. -/
structure Backend where
  store : Key → Option Nat
  prepFail : Key → Bool
  queryFail : Key → Bool
  rowFail : Key → Bool
  setFail : Key → Nat → Bool

namespace SqliteClient

/-- SqliteClient get: any internal error, and a missing row, yield None;
a present row whose decoding succeeds yields its value. -/
def get (b : Backend) (k : Key) : Option Nat :=
  if b.prepFail k then none
  else if b.queryFail k then none
  else
    match b.store k with
    | some v => if b.rowFail k then none else some v
    | none => none

/-- SqliteClient set: the upsert INSERT OR ON CONFLICT UPDATE.  Returns the
updated backend together with the Result of the call; a failed execute
leaves the table unchanged. -/
def set (b : Backend) (k : Key) (v : Nat) : Backend × Except Unit Unit :=
  if b.setFail k v then (b, Except.error ())
  else
    ({ b with store := fun q => if q = k then some v else b.store q }, Except.ok ())

end SqliteClient

/-- The counter store: in-memory cache plus durable backend. -/
structure DBManager where
  cache : Cache
  backend : Backend

namespace DBManager

/-- DBManager new: empty cache over the given backend. -/
def new (backend : Backend) : DBManager := ⟨[], backend⟩

/-- DBManager count_on_cache.  The unwrap of the cache lookup is modelled by
the outer Option: none is a panic of the Rust code, some (r, m) is a normal
return of r (itself the Rust Option of u64) with the updated state. -/
def count_on_cache (m : DBManager) (k : Key) : Option (Option Nat × DBManager) :=
  match cacheGet m.cache k with
  | none => none
  | some prev =>
    some (some (satAdd1 prev), { m with cache := cacheInsert m.cache k (satAdd1 prev) })

/-- DBManager load_to_cache. -/
def load_to_cache (m : DBManager) (k : Key) (v : Nat) : DBManager :=
  { m with cache := cacheInsert m.cache k v }

/-- DBManager check_in_cache. -/
def check_in_cache (m : DBManager) (k : Key) : Bool :=
  (cacheGet m.cache k).isSome

/-- DBManager count: cache hit increments in place; a miss reads the
backend (any failure or absence read as 0), loads the value into the cache,
then increments in place. -/
def count (m : DBManager) (k : Key) : Option (Option Nat × DBManager) :=
  if m.check_in_cache k then m.count_on_cache k
  else
    (m.load_to_cache k ((SqliteClient.get m.backend k).getD 0)).count_on_cache k

end DBManager

/-- The loop body of DBManager sync_to_backend over the list of cache
entries: upsert each entry in order, discard each per-entry Result, and
record every attempted set call in a trace. -/
def syncEntries (b : Backend) : List (Key × Nat) → Backend × List (Key × Nat)
  | [] => (b, [])
  | (k, v) :: rest =>
    ((syncEntries (SqliteClient.set b k v).1 rest).1,
      (k, v) :: (syncEntries (SqliteClient.set b k v).1 rest).2)

/-- DBManager sync_to_backend: upserts every cache entry to the backend,
ignoring per-entry failures, and returns Ok. -/
def DBManager.sync_to_backend (m : DBManager) : Except Unit Unit × DBManager :=
  (Except.ok (), { m with backend := (syncEntries m.backend m.cache).1 })

/-- The value a count call hands back to its caller: none if the call
panics, otherwise the returned Rust Option of u64. -/
def countVal (m : DBManager) (k : Key) : Option (Option Nat) :=
  (m.count k).map Prod.fst

/-- Mirrors the ret.is_err() check of the sync scheduler loop in main.rs,
which logs a warning when a sync with the backend failed. -/
def schedulerSyncFailed (m : DBManager) : Bool :=
  match (m.sync_to_backend).1 with
  | Except.ok _ => false
  | Except.error _ => true

/-- A backend whose table is empty and whose calls never fail internally. -/
def emptyBackend : Backend :=
  ⟨fun _ => none, fun _ => false, fun _ => false, fun _ => false, fun _ _ => false⟩

/-- Keys of the cache are pairwise distinct and all cached values fit in
u64; both hold in every reachable cache state. -/
def cacheWF (c : Cache) : Prop :=
  (c.map Prod.fst).Nodup ∧ ∀ p ∈ c, p.2 ≤ U64MAX

/-- Every stored backend value fits in u64. -/
def Backend.wf (b : Backend) : Prop :=
  ∀ k v, b.store k = some v → v ≤ U64MAX

/-- Well-formedness of a whole manager state. -/
def DBManager.wf (m : DBManager) : Prop :=
  cacheWF m.cache ∧ m.backend.wf

theorem satAdd1_le : ∀ v : Nat, satAdd1 v ≤ U64MAX :=
  fun v => min_le_right (v + 1) U64MAX

theorem le_satAdd1 {v : Nat} (h : v ≤ U64MAX) : v ≤ satAdd1 v :=
  le_min (Nat.le_succ v) h

theorem satAdd1_of_lt {v : Nat} (h : v < U64MAX) : satAdd1 v = v + 1 :=
  min_eq_left h

theorem satAdd1_maxed : satAdd1 U64MAX = U64MAX :=
  min_eq_right (Nat.le_succ U64MAX)

@[simp] theorem cacheGet_insert_self (c : Cache) (k : Key) (v : Nat) :
    cacheGet (cacheInsert c k v) k = some v := by
  induction c with
  | nil => simp [cacheInsert, cacheGet]
  | cons p rest ih =>
    obtain ⟨k1, v1⟩ := p
    by_cases h : k1 = k <;> simp [cacheInsert, cacheGet, h, ih]

theorem cacheGet_insert_ne (c : Cache) {q k : Key} (h : q ≠ k) (v : Nat) :
    cacheGet (cacheInsert c k v) q = cacheGet c q := by
  induction c with
  | nil => simp [cacheInsert, cacheGet, Ne.symm h]
  | cons p rest ih =>
    obtain ⟨k1, v1⟩ := p
    by_cases h1 : k1 = k
    · simp [cacheInsert, cacheGet, h1, Ne.symm h]
    · by_cases h2 : k1 = q <;> simp [cacheInsert, cacheGet, h, h1, h2, ih]

theorem mem_cacheInsert {c : Cache} {k : Key} {v : Nat} {p : Key × Nat}
    (h : p ∈ cacheInsert c k v) : p = (k, v) ∨ p ∈ c := by
  induction c with
  | nil => simpa [cacheInsert] using h
  | cons q rest ih =>
    obtain ⟨k1, v1⟩ := q
    by_cases h1 : k1 = k
    · rw [cacheInsert.eq_def] at h
      simp only [if_pos h1, List.mem_cons] at h
      rcases h with h2 | h2
      · exact Or.inl h2
      · exact Or.inr (List.mem_cons.mpr (Or.inr h2))
    · rw [cacheInsert.eq_def] at h
      simp only [if_neg h1, List.mem_cons] at h
      rcases h with h2 | h2
      · exact Or.inr (List.mem_cons.mpr (Or.inl h2))
      · rcases ih h2 with h3 | h3
        · exact Or.inl h3
        · exact Or.inr (List.mem_cons.mpr (Or.inr h3))

theorem cacheGet_eq_none_iff {c : Cache} {k : Key} :
    cacheGet c k = none ↔ k ∉ c.map Prod.fst := by
  induction c with
  | nil => simp [cacheGet]
  | cons p rest ih =>
    obtain ⟨k1, v1⟩ := p
    by_cases h : k1 = k
    · subst h
      simp [cacheGet]
    · simp [cacheGet, h, ih, Ne.symm h]

theorem cacheGet_mem {c : Cache} {k : Key} {v : Nat}
    (h : cacheGet c k = some v) : (k, v) ∈ c := by
  induction c with
  | nil => simp [cacheGet] at h
  | cons p rest ih =>
    obtain ⟨k1, v1⟩ := p
    simp only [cacheGet] at h
    by_cases h1 : k1 = k
    · rw [if_pos h1] at h
      obtain rfl := Option.some.inj h
      exact List.mem_cons.mpr (Or.inl (by rw [h1]))
    · rw [if_neg h1] at h
      exact List.mem_cons_of_mem _ (ih h)

theorem cacheInsert_keys (c : Cache) (k : Key) (v : Nat) :
    (cacheInsert c k v).map Prod.fst =
      if k ∈ c.map Prod.fst then c.map Prod.fst else c.map Prod.fst ++ [k] := by
  induction c with
  | nil => simp [cacheInsert]
  | cons p rest ih =>
    obtain ⟨k1, v1⟩ := p
    by_cases h : k1 = k
    · subst h
      simp [cacheInsert]
    · have hne : ¬k = k1 := fun hh => h hh.symm
      by_cases hm : k ∈ rest.map Prod.fst <;>
        simp [cacheInsert, h, hne, hm, ih]

theorem cacheInsert_nodup {c : Cache} (k : Key) (v : Nat)
    (h : (c.map Prod.fst).Nodup) : ((cacheInsert c k v).map Prod.fst).Nodup := by
  rw [cacheInsert_keys]
  by_cases hm : k ∈ c.map Prod.fst
  · rw [if_pos hm]
    exact h
  · rw [if_neg hm, List.nodup_append]
    refine ⟨h, List.nodup_singleton k, ?_⟩
    intro x hx hk
    rw [List.mem_singleton] at hk
    exact hm (hk ▸ hx)

theorem cacheWF_insert {c : Cache} {k : Key} {v : Nat}
    (h : cacheWF c) (hv : v ≤ U64MAX) : cacheWF (cacheInsert c k v) := by
  refine ⟨cacheInsert_nodup k v h.1, fun p hp => ?_⟩
  rcases mem_cacheInsert hp with h1 | h1
  · subst h1
    exact hv
  · exact h.2 p h1

theorem cacheGet_of_mem_nodup {c : Cache} {k : Key} {v : Nat}
    (hnd : (c.map Prod.fst).Nodup) (hm : (k, v) ∈ c) : cacheGet c k = some v := by
  induction c with
  | nil => simp at hm
  | cons p rest ih =>
    obtain ⟨k1, v1⟩ := p
    rw [List.map_cons, List.nodup_cons] at hnd
    rcases List.mem_cons.mp hm with h | h
    · injection h with h1 h2
      subst h1
      subst h2
      simp [cacheGet]
    · have hk1 : ¬k1 = k := by
        rintro rfl
        exact hnd.1 (List.mem_map.mpr ⟨(k1, v), h, rfl⟩)
      simp only [cacheGet, if_neg hk1]
      exact ih hnd.2 h

theorem set_fst_store (b : Backend) (k : Key) (v : Nat) (q : Key) :
    ((SqliteClient.set b k v).1).store q =
      if b.setFail k v then b.store q else if q = k then some v else b.store q := by
  rw [SqliteClient.set]
  split <;> simp

theorem set_fst_prepFail (b : Backend) (k : Key) (v : Nat) :
    ((SqliteClient.set b k v).1).prepFail = b.prepFail := by
  rw [SqliteClient.set]
  split <;> rfl

theorem set_fst_queryFail (b : Backend) (k : Key) (v : Nat) :
    ((SqliteClient.set b k v).1).queryFail = b.queryFail := by
  rw [SqliteClient.set]
  split <;> rfl

theorem set_fst_rowFail (b : Backend) (k : Key) (v : Nat) :
    ((SqliteClient.set b k v).1).rowFail = b.rowFail := by
  rw [SqliteClient.set]
  split <;> rfl

theorem set_fst_setFail (b : Backend) (k : Key) (v : Nat) :
    ((SqliteClient.set b k v).1).setFail = b.setFail := by
  rw [SqliteClient.set]
  split <;> rfl

/-- The durable value the loop of sync_to_backend leaves for a key, as a
function of the entry list alone: the value of the last entry for the key
whose upsert execution succeeds, if any. -/
def lastSet (sf : Key → Nat → Bool) (k : Key) : List (Key × Nat) → Option Nat
  | [] => none
  | (k1, v) :: rest =>
    match lastSet sf k rest with
    | some w => some w
    | none => if k1 = k then (if sf k1 v then none else some v) else none

theorem syncEntries_fst_prepFail (l : List (Key × Nat)) (b : Backend) :
    ((syncEntries b l).1).prepFail = b.prepFail := by
  induction l generalizing b with
  | nil => rfl
  | cons p rest ih =>
    obtain ⟨k, v⟩ := p
    rw [syncEntries]
    rw [ih, set_fst_prepFail]

theorem syncEntries_fst_queryFail (l : List (Key × Nat)) (b : Backend) :
    ((syncEntries b l).1).queryFail = b.queryFail := by
  induction l generalizing b with
  | nil => rfl
  | cons p rest ih =>
    obtain ⟨k, v⟩ := p
    rw [syncEntries]
    rw [ih, set_fst_queryFail]

theorem syncEntries_fst_rowFail (l : List (Key × Nat)) (b : Backend) :
    ((syncEntries b l).1).rowFail = b.rowFail := by
  induction l generalizing b with
  | nil => rfl
  | cons p rest ih =>
    obtain ⟨k, v⟩ := p
    rw [syncEntries]
    rw [ih, set_fst_rowFail]

theorem syncEntries_fst_setFail (l : List (Key × Nat)) (b : Backend) :
    ((syncEntries b l).1).setFail = b.setFail := by
  induction l generalizing b with
  | nil => rfl
  | cons p rest ih =>
    obtain ⟨k, v⟩ := p
    rw [syncEntries]
    rw [ih, set_fst_setFail]

theorem syncEntries_store (l : List (Key × Nat)) (b : Backend) (k : Key) :
    ((syncEntries b l).1).store k =
      match lastSet b.setFail k l with
      | some w => some w
      | none => b.store k := by
  induction l generalizing b with
  | nil => rfl
  | cons p rest ih =>
    obtain ⟨k1, v⟩ := p
    rw [syncEntries, lastSet]
    rw [ih, set_fst_setFail]
    cases hrest : lastSet b.setFail k rest with
    | some w => rfl
    | none =>
      rw [set_fst_store]
      by_cases hk : k1 = k
      · rw [hk]
        by_cases hf : b.setFail k v <;> simp [hf]
      · have hkk : ¬k = k1 := fun hh => hk hh.symm
        by_cases hf : b.setFail k1 v <;> simp [hf, hk, hkk]

theorem syncEntries_trace (l : List (Key × Nat)) (b : Backend) :
    (syncEntries b l).2 = l := by
  induction l generalizing b with
  | nil => rfl
  | cons p rest ih =>
    obtain ⟨k, v⟩ := p
    rw [syncEntries]
    rw [ih]

theorem lastSet_of_not_mem {l : List (Key × Nat)} {k : Key}
    (sf : Key → Nat → Bool) (h : k ∉ l.map Prod.fst) : lastSet sf k l = none := by
  induction l with
  | nil => rfl
  | cons p rest ih =>
    obtain ⟨k1, v⟩ := p
    rw [List.map_cons, List.mem_cons] at h
    push_neg at h
    rw [lastSet, ih h.2]
    exact if_neg (fun hh : k1 = k => h.1 hh.symm)

theorem lastSet_mem {l : List (Key × Nat)} {k : Key} {w : Nat}
    {sf : Key → Nat → Bool} (h : lastSet sf k l = some w) : (k, w) ∈ l := by
  induction l with
  | nil => simp [lastSet] at h
  | cons p rest ih =>
    obtain ⟨k1, v⟩ := p
    rw [lastSet] at h
    cases hrest : lastSet sf k rest with
    | some u =>
      rw [hrest] at h
      obtain rfl := Option.some.inj h
      exact List.mem_cons_of_mem _ (ih hrest)
    | none =>
      rw [hrest] at h
      by_cases hk : k1 = k
      · rw [if_pos hk] at h
        by_cases hf : sf k1 v
        · rw [if_pos hf] at h
          exact absurd h (by simp)
        · rw [if_neg hf] at h
          obtain rfl := Option.some.inj h
          exact List.mem_cons.mpr (Or.inl (by rw [hk]))
      · rw [if_neg hk] at h
        exact absurd h (by simp)

theorem lastSet_of_get_nodup {c : Cache} {k : Key} {v : Nat}
    {sf : Key → Nat → Bool} (hnd : (c.map Prod.fst).Nodup)
    (hv : cacheGet c k = some v) (hf : sf k v = false) :
    lastSet sf k c = some v := by
  induction c with
  | nil => simp [cacheGet] at hv
  | cons p rest ih =>
    obtain ⟨k1, v1⟩ := p
    rw [List.map_cons, List.nodup_cons] at hnd
    rw [cacheGet] at hv
    by_cases hk : k1 = k
    · rw [if_pos hk] at hv
      obtain rfl := Option.some.inj hv
      have hnm : k ∉ rest.map Prod.fst := hk ▸ hnd.1
      rw [lastSet, lastSet_of_not_mem sf hnm, if_pos hk, hk, hf]
      rfl
    · rw [if_neg hk] at hv
      rw [lastSet, ih hnd.2 hv]

theorem get_of_fail {b : Backend} {k : Key}
    (h : b.prepFail k = true ∨ b.queryFail k = true ∨ b.rowFail k = true) :
    SqliteClient.get b k = none := by
  rcases h with h | h | h
  · simp [SqliteClient.get, h]
  · simp [SqliteClient.get, h]
  · cases hs : b.store k with
    | none => simp [SqliteClient.get, h, hs]
    | some w => simp [SqliteClient.get, h, hs]

theorem get_of_store_none {b : Backend} {k : Key}
    (h : b.store k = none) : SqliteClient.get b k = none := by
  simp [SqliteClient.get, h]

theorem get_some_store {b : Backend} {k : Key} {v : Nat}
    (h : SqliteClient.get b k = some v) : b.store k = some v := by
  rw [SqliteClient.get] at h
  by_cases h1 : b.prepFail k
  · simp [h1] at h
  · by_cases h2 : b.queryFail k
    · simp [h1, h2] at h
    · cases hs : b.store k with
      | none => simp [h1, h2, hs] at h
      | some w =>
        by_cases h3 : b.rowFail k
        · simp [h1, h2, hs, h3] at h
        · simp [h1, h2, hs, h3] at h
          rw [h]

theorem count_hit {m : DBManager} {k : Key} {prev : Nat}
    (h : cacheGet m.cache k = some prev) :
    m.count k = some (some (satAdd1 prev),
      { m with cache := cacheInsert m.cache k (satAdd1 prev) }) := by
  simp [DBManager.count, DBManager.check_in_cache, DBManager.count_on_cache, h]

theorem count_miss {m : DBManager} {k : Key}
    (h : cacheGet m.cache k = none) :
    m.count k = some (some (satAdd1 ((SqliteClient.get m.backend k).getD 0)),
      ⟨cacheInsert (cacheInsert m.cache k ((SqliteClient.get m.backend k).getD 0)) k
          (satAdd1 ((SqliteClient.get m.backend k).getD 0)), m.backend⟩) := by
  simp [DBManager.count, DBManager.check_in_cache, DBManager.load_to_cache,
    DBManager.count_on_cache, h, cacheGet_insert_self]

theorem count_total_aux (m : DBManager) (k : Key) :
    ∃ r m', m.count k = some (some r, m') := by
  cases h : cacheGet m.cache k with
  | some prev => exact ⟨_, _, count_hit h⟩
  | none => exact ⟨_, _, count_miss h⟩

theorem count_state {m : DBManager} {k : Key} {p : Option Nat} {m' : DBManager}
    (h : m.count k = some (p, m')) :
    m'.backend = m.backend ∧
      (∃ r, p = some r ∧ cacheGet m'.cache k = some r) ∧
      ∀ q, q ≠ k → cacheGet m'.cache q = cacheGet m.cache q := by
  cases hc : cacheGet m.cache k with
  | some prev =>
    rw [count_hit hc] at h
    obtain h' := Option.some.inj h
    obtain h2 := (Prod.ext_iff.mp h').2
    obtain h1 := (Prod.ext_iff.mp h').1
    subst h2
    refine ⟨rfl, ⟨satAdd1 prev, h1.symm, cacheGet_insert_self ..⟩, ?_⟩
    intro q hq
    exact cacheGet_insert_ne _ hq _
  | none =>
    rw [count_miss hc] at h
    obtain h' := Option.some.inj h
    obtain h2 := (Prod.ext_iff.mp h').2
    obtain h1 := (Prod.ext_iff.mp h').1
    subst h2
    refine ⟨rfl, ⟨_, h1.symm, cacheGet_insert_self ..⟩, ?_⟩
    intro q hq
    rw [cacheGet_insert_ne _ hq, cacheGet_insert_ne _ hq]

theorem count_wf {m : DBManager} {k : Key} {p : Option Nat} {m' : DBManager}
    (hwf : m.wf) (h : m.count k = some (p, m')) : m'.wf := by
  cases hc : cacheGet m.cache k with
  | some prev =>
    rw [count_hit hc] at h
    obtain h2 := (Prod.ext_iff.mp (Option.some.inj h)).2
    subst h2
    exact ⟨cacheWF_insert hwf.1 (satAdd1_le _), hwf.2⟩
  | none =>
    rw [count_miss hc] at h
    obtain h2 := (Prod.ext_iff.mp (Option.some.inj h)).2
    subst h2
    have hv0 : (SqliteClient.get m.backend k).getD 0 ≤ U64MAX := by
      cases hg : SqliteClient.get m.backend k with
      | none => simp
      | some w => simpa using hwf.2 k w (get_some_store hg)
    exact ⟨cacheWF_insert (cacheWF_insert hwf.1 hv0) (satAdd1_le _), hwf.2⟩

theorem sync_backend_wf {m : DBManager} (hwf : m.wf) : ((m.sync_to_backend).2).wf := by
  refine ⟨hwf.1, ?_⟩
  intro k v hs
  have hs' : ((syncEntries m.backend m.cache).1).store k = some v := hs
  rw [syncEntries_store] at hs'
  cases hl : lastSet m.backend.setFail k m.cache with
  | some w =>
    rw [hl] at hs'
    obtain rfl := Option.some.inj hs'
    exact hwf.1.2 _ (lastSet_mem hl)
  | none =>
    rw [hl] at hs'
    exact hwf.2 k v hs'

/-- One sequential operation on the counter store during a process
lifetime: a count request for a key, or one sync of the scheduler. -/
inductive Op
  | cnt (k : Key)
  | sync

/-- Run a list of operations sequentially, recording the key and returned
value of every count call that returns normally; a panicking call aborts
the run. -/
def runOps (m : DBManager) : List Op → DBManager × List (Key × Nat)
  | [] => (m, [])
  | Op.cnt k :: rest =>
    match m.count k with
    | some (some r, m') => ((runOps m' rest).1, (k, r) :: (runOps m' rest).2)
    | some (none, m') => runOps m' rest
    | none => (m, [])
  | Op.sync :: rest => runOps (m.sync_to_backend).2 rest

/-- The values returned for a given key, in order, along a recorded run. -/
def obsFor (k : Key) (tr : List (Key × Nat)) : List Nat :=
  (tr.filter (fun p => p.1 == k)).map Prod.snd

theorem obsFor_cons_self (k : Key) (r : Nat) (tr : List (Key × Nat)) :
    obsFor k ((k, r) :: tr) = r :: obsFor k tr := by
  simp [obsFor]

theorem obsFor_cons_ne {q k : Key} (h : q ≠ k) (r : Nat) (tr : List (Key × Nat)) :
    obsFor k ((q, r) :: tr) = obsFor k tr := by
  simp [obsFor, h]

theorem runOps_lb (k : Key) (ops : List Op) :
    ∀ (m : DBManager), m.wf → ∀ v, cacheGet m.cache k = some v →
      ∀ r ∈ obsFor k (runOps m ops).2, v ≤ r := by
  induction ops with
  | nil =>
    intro m _ v _ r hr
    simp [runOps, obsFor] at hr
  | cons op rest ih =>
    intro m hwf v hv r hr
    cases op with
    | cnt q =>
      by_cases hqk : q = k
      · subst hqk
        simp only [runOps, count_hit hv] at hr
        rw [obsFor_cons_self] at hr
        have hle : v ≤ satAdd1 v := le_satAdd1 (hwf.1.2 _ (cacheGet_mem hv))
        rcases List.mem_cons.mp hr with hrr | hrr
        · exact hrr ▸ hle
        · exact le_trans hle
            (ih _ (count_wf hwf (count_hit hv)) _ (cacheGet_insert_self ..) r hrr)
      · obtain ⟨r0, m', hc⟩ := count_total_aux m q
        simp only [runOps, hc] at hr
        rw [obsFor_cons_ne hqk] at hr
        have hv' : cacheGet m'.cache k = some v := by
          rw [(count_state hc).2.2 k (fun hh => hqk hh.symm)]
          exact hv
        exact ih m' (count_wf hwf hc) v hv' r hr
    | sync =>
      simp only [runOps] at hr
      exact ih _ (sync_backend_wf hwf) v hv r hr

theorem runOps_mono (k : Key) (ops : List Op) :
    ∀ (m : DBManager), m.wf → List.Pairwise (· ≤ ·) (obsFor k (runOps m ops).2) := by
  induction ops with
  | nil =>
    intro m _
    simp [runOps, obsFor]
  | cons op rest ih =>
    intro m hwf
    cases op with
    | cnt q =>
      obtain ⟨r0, m', hc⟩ := count_total_aux m q
      simp only [runOps, hc]
      by_cases hqk : q = k
      · subst hqk
        rw [obsFor_cons_self, List.pairwise_cons]
        have hr2' : cacheGet m'.cache q = some r0 := by
          obtain ⟨r1, hr1, hr2⟩ := (count_state hc).2.1
          obtain rfl := Option.some.inj hr1
          exact hr2
        exact ⟨fun r hr => runOps_lb q rest m' (count_wf hwf hc) r0 hr2' r hr,
          ih m' (count_wf hwf hc)⟩
      · rw [obsFor_cons_ne hqk]
        exact ih m' (count_wf hwf hc)
    | sync =>
      simp only [runOps]
      exact ih _ (sync_backend_wf hwf)

theorem satAdd1_zero : satAdd1 0 = 1 := by decide

/-- Characterization of the backend left by one sync: each stored value is
the last successfully upserted cache entry for its key, if any. -/
theorem sync_store_char (m : DBManager) (k : Key) :
    ((((m.sync_to_backend).2).backend)).store k =
      match lastSet m.backend.setFail k m.cache with
      | some w => some w
      | none => m.backend.store k :=
  syncEntries_store m.cache m.backend k

/-- The control state of one in-flight count call for a fixed key, at the
granularity of its await points: each constructor names the next atomic
step (one cache-lock acquisition, or the backend read) the task performs. -/
inductive Phase
  | check
  | readDB
  | load (v : Nat)
  | inc
  | done (r : Option Nat)
  | panicked
deriving DecidableEq

/-- One atomic step of an in-flight count call: check_in_cache under the
cache lock, the backend get (no cache lock), load_to_cache under the cache
lock, and count_on_cache under the cache lock; finished tasks do not move. -/
def phaseStep (b : Backend) (k : Key) (c : Cache) : Phase → Phase × Cache
  | Phase.check =>
    if (cacheGet c k).isSome then (Phase.inc, c) else (Phase.readDB, c)
  | Phase.readDB => (Phase.load ((SqliteClient.get b k).getD 0), c)
  | Phase.load v => (Phase.inc, cacheInsert c k v)
  | Phase.inc =>
    match cacheGet c k with
    | some prev => (Phase.done (some (satAdd1 prev)), cacheInsert c k (satAdd1 prev))
    | none => (Phase.panicked, c)
  | Phase.done r => (Phase.done r, c)
  | Phase.panicked => (Phase.panicked, c)

/-- Two concurrent count calls for the same key sharing one cache. -/
structure Race2 where
  t1 : Phase
  t2 : Phase
  cache : Cache
deriving DecidableEq

/-- Let the scheduled task (false picks the first) take one atomic step. -/
def raceStep (b : Backend) (k : Key) (s : Race2) (who : Bool) : Race2 :=
  if who then
    ⟨s.t1, (phaseStep b k s.cache s.t2).1, (phaseStep b k s.cache s.t2).2⟩
  else
    ⟨(phaseStep b k s.cache s.t1).1, s.t2, (phaseStep b k s.cache s.t1).2⟩

/-- Run a concrete interleaving of the two tasks. -/
def raceRun (b : Backend) (k : Key) : List Bool → Race2 → Race2
  | [], s => s
  | w :: rest, s => raceRun b k rest (raceStep b k s w)

def keyA : Key := "a"

def keyB : Key := "b"

def keyS : Key := "s"

def keyX : Key := "x"

def keyY : Key := "y"

def keyAbc : Key := "abc"

def witBackend : Backend :=
  ⟨fun q => if q = keyB then some 5 else none, fun _ => false, fun _ => false,
    fun _ => false, fun _ _ => false⟩

def mgrW : DBManager := ⟨[], witBackend⟩

def mgrWa : DBManager := ⟨[(keyA, 1)], witBackend⟩

def bigBackend : Backend :=
  ⟨fun q => if q = keyA then some U64MAX else none, fun _ => false, fun _ => false,
    fun _ => false, fun _ _ => false⟩

def mgr0 : DBManager := ⟨[], emptyBackend⟩

theorem mgr0_wf : mgr0.wf :=
  ⟨⟨List.nodup_nil, fun p hp => absurd hp (List.not_mem_nil p)⟩,
    fun _ _ h => Option.noConfusion h⟩

/-- C1 (amended): for a key absent from cache and backend the first count
returns 1; for a key absent from the cache whose backend read returns V
with V below the u64 maximum, the first count returns V + 1; and a count
that returned r, with r below the u64 maximum, is followed on the next
sequential count of the same key by r + 1. -/
theorem count_first_and_next :
    (∀ (m : DBManager) (k : Key), cacheGet m.cache k = none →
      m.backend.store k = none → ∃ m', m.count k = some (some 1, m')) ∧
    (∀ (m : DBManager) (k : Key) (V : Nat), cacheGet m.cache k = none →
      SqliteClient.get m.backend k = some V → V < U64MAX →
      ∃ m', m.count k = some (some (V + 1), m')) ∧
    (∀ (m : DBManager) (k : Key) (r : Nat) (m' : DBManager),
      m.count k = some (some r, m') → r < U64MAX →
      ∃ m'', m'.count k = some (some (r + 1), m'')) := by
  refine ⟨?_, ?_, ?_⟩
  · intro m k hc hb
    have hcount := count_miss hc
    rw [get_of_store_none hb,
      show (Option.getD (none : Option Nat) 0) = 0 from rfl, satAdd1_zero] at hcount
    exact ⟨_, hcount⟩
  · intro m k V hc hg hV
    have hcount := count_miss hc
    rw [hg] at hcount
    simp only [Option.getD_some] at hcount
    rw [satAdd1_of_lt hV] at hcount
    exact ⟨_, hcount⟩
  · intro m k r m' hc hr
    have hr2 : cacheGet m'.cache k = some r := by
      obtain ⟨r1, hr1, hr2⟩ := (count_state hc).2.1
      obtain rfl := Option.some.inj hr1
      exact hr2
    have hcount := count_hit hr2
    rw [satAdd1_of_lt hr] at hcount
    exact ⟨_, hcount⟩

/-- Witness for C1 at concrete inputs: a fresh key returns 1, a key whose
backend row holds 5 returns 6 on the first count, and a count following a
count that returned 1 returns 2. -/
theorem count_first_and_next_witness :
    (∃ m', mgrW.count keyA = some (some 1, m')) ∧
    (∃ m', mgrW.count keyB = some (some 6, m')) ∧
    (∃ m'', mgrWa.count keyA = some (some 2, m'')) :=
  ⟨count_first_and_next.1 mgrW keyA rfl rfl,
    count_first_and_next.2.1 mgrW keyB 5 rfl rfl (by decide),
    count_first_and_next.2.2 mgrW keyA 1 mgrWa rfl (by decide)⟩

/-- Counterexample to C1 as stated: when the backend row for the key holds
2 ^ 64 - 1, the first count does not return the row value plus one (the
increment saturates). -/
theorem count_first_and_next_cex :
    countVal ⟨[], bigBackend⟩ keyA ≠ some (some (U64MAX + 1)) := by decide

/-- C2: along any sequential run of count and sync operations from a
well-formed state, the values a fixed key returns never decrease: a later
call never returns strictly less than an earlier one. -/
theorem observed_counts_monotone (m : DBManager) (ops : List Op) (k : Key)
    (hwf : m.wf) : List.Pairwise (· ≤ ·) (obsFor k (runOps m ops).2) :=
  runOps_mono k ops m hwf

def demoOps : List Op := [Op.cnt keyA, Op.cnt keyB, Op.sync, Op.cnt keyA]

/-- Witness for C2: a concrete run from the empty well-formed state. -/
theorem observed_counts_monotone_witness :
    mgr0.wf ∧ List.Pairwise (· ≤ ·) (obsFor keyA (runOps mgr0 demoOps).2) :=
  ⟨mgr0_wf, observed_counts_monotone mgr0 demoOps keyA mgr0_wf⟩

def raceSchedule : List Bool := [false, true, false, false, false, true, true, true]

def serialSchedule : List Bool := [false, false, false, false, true, true]

/-- C3 (amended): with the two in-flight count calls for a fresh key
serialized (the second starts after the first has finished), the calls
return 1 and 2 and the final cache value is 2 = N; but under the
interleaving where both calls check the cache before either loads the key,
both return 1 and the final cache value is 1, one increment short: the
check, load-from-backend, increment sequence of the miss path is not
atomic with respect to a concurrent count of the same key. -/
theorem race_serial_and_lost_update :
    ((raceRun emptyBackend keyA serialSchedule ⟨Phase.check, Phase.check, []⟩).t1
        = Phase.done (some 1) ∧
      (raceRun emptyBackend keyA serialSchedule ⟨Phase.check, Phase.check, []⟩).t2
        = Phase.done (some 2) ∧
      cacheGet (raceRun emptyBackend keyA serialSchedule
        ⟨Phase.check, Phase.check, []⟩).cache keyA = some 2) ∧
    ((raceRun emptyBackend keyA raceSchedule ⟨Phase.check, Phase.check, []⟩).t1
        = Phase.done (some 1) ∧
      (raceRun emptyBackend keyA raceSchedule ⟨Phase.check, Phase.check, []⟩).t2
        = Phase.done (some 1) ∧
      cacheGet (raceRun emptyBackend keyA raceSchedule
        ⟨Phase.check, Phase.check, []⟩).cache keyA = some 1) := by decide

/-- Counterexample to C3 as stated: under the interleaving of two
first-time count calls for a fresh key in which both observe the cache
miss before either loads the key, both tasks finish normally yet the final
in-memory cache value is not N = 2. -/
theorem race_lost_update_cex :
    (raceRun emptyBackend keyA raceSchedule ⟨Phase.check, Phase.check, []⟩).t1
        = Phase.done (some 1) ∧
    (raceRun emptyBackend keyA raceSchedule ⟨Phase.check, Phase.check, []⟩).t2
        = Phase.done (some 1) ∧
    cacheGet (raceRun emptyBackend keyA raceSchedule
        ⟨Phase.check, Phase.check, []⟩).cache keyA ≠ some 2 := by decide

/-- C4 (amended): if the cache holds V for a key (cache keys distinct), V
is below the u64 maximum, and neither the upsert of the key during the
flush nor the backend read after the restart fails, then after
sync_to_backend a fresh manager over the resulting backend returns V + 1 on
its first count of the key; concretely, from an empty backend two counts of
a key return 1 and 2, and after a sync and a restart the next count
returns 3. -/
theorem flush_then_restart :
    (∀ (m : DBManager) (k : Key) (V : Nat),
      (m.cache.map Prod.fst).Nodup → cacheGet m.cache k = some V → V < U64MAX →
      m.backend.setFail k V = false → m.backend.prepFail k = false →
      m.backend.queryFail k = false → m.backend.rowFail k = false →
      ∃ m', (DBManager.new (((m.sync_to_backend).2).backend)).count k
          = some (some (V + 1), m')) ∧
    (∃ m1 m2 m3,
      (DBManager.new emptyBackend).count keyAbc = some (some 1, m1) ∧
      m1.count keyAbc = some (some 2, m2) ∧
      (DBManager.new (((m2.sync_to_backend).2).backend)).count keyAbc
          = some (some 3, m3)) := by
  constructor
  · intro m k V hnd hv hV hsf hpf hqf hrf
    have hb : (((m.sync_to_backend).2).backend) = (syncEntries m.backend m.cache).1 :=
      rfl
    have hstore : (((m.sync_to_backend).2).backend).store k = some V := by
      rw [hb, syncEntries_store, lastSet_of_get_nodup hnd hv hsf]
    have hget : SqliteClient.get (((m.sync_to_backend).2).backend) k = some V := by
      rw [SqliteClient.get, hb, syncEntries_fst_prepFail, syncEntries_fst_queryFail,
        syncEntries_fst_rowFail]
      rw [← hb, hstore]
      simp [hpf, hqf, hrf]
    have hcount := count_miss
      (show cacheGet (DBManager.new (((m.sync_to_backend).2).backend)).cache k = none
        from rfl)
    rw [show (DBManager.new (((m.sync_to_backend).2).backend)).backend
        = (((m.sync_to_backend).2).backend) from rfl, hget] at hcount
    simp only [Option.getD_some] at hcount
    rw [satAdd1_of_lt hV] at hcount
    exact ⟨_, hcount⟩
  · exact ⟨_, _, _, rfl, rfl, rfl⟩

def mgrScn : DBManager := ⟨[(keyAbc, 2)], emptyBackend⟩

/-- Witness for C4 at the concrete scenario state: cache value 2 for the
key, fault-free backend; after flush and restart the count returns 3. -/
theorem flush_then_restart_witness :
    (mgrScn.cache.map Prod.fst).Nodup ∧ cacheGet mgrScn.cache keyAbc = some 2 ∧
      (2 : Nat) < U64MAX ∧ mgrScn.backend.setFail keyAbc 2 = false ∧
      ∃ m', (DBManager.new (((mgrScn.sync_to_backend).2).backend)).count keyAbc
          = some (some 3, m') :=
  ⟨by decide, rfl, by decide, rfl,
    flush_then_restart.1 mgrScn keyAbc 2 (by decide) rfl (by decide) rfl rfl rfl rfl⟩

def mgrSat : DBManager := ⟨[(keyA, U64MAX)], emptyBackend⟩

/-- Counterexample to C4 as stated: flushing a cache value of 2 ^ 64 - 1
and restarting does not make the next count return that value plus one. -/
theorem flush_then_restart_cex :
    countVal (DBManager.new (((mgrSat.sync_to_backend).2).backend)) keyA
      ≠ some (some (U64MAX + 1)) := by decide

/-- C5: sync_to_backend is idempotent: a second sync with no intervening
increments leaves every stored backend value exactly as after the first. -/
theorem sync_to_backend_idempotent (m : DBManager) (k : Key) :
    (((((m.sync_to_backend).2).sync_to_backend).2).backend).store k
      = ((((m.sync_to_backend).2)).backend).store k := by
  have h2 : ((((m.sync_to_backend).2).sync_to_backend).2).backend
      = (syncEntries (syncEntries m.backend m.cache).1 m.cache).1 := rfl
  have h1 : (((m.sync_to_backend).2).backend) = (syncEntries m.backend m.cache).1 :=
    rfl
  rw [h2, h1, syncEntries_store, syncEntries_store, syncEntries_fst_setFail]
  cases lastSet m.backend.setFail k m.cache with
  | some w => rfl
  | none => rfl

/-- C6: count is total — it always hands a value back to its caller — and
when the key is not cached and the backend read path fails internally, it
treats the durable value as absent/zero and returns 1. -/
theorem count_never_fails_caller :
    (∀ (m : DBManager) (k : Key), ∃ r m', m.count k = some (some r, m')) ∧
    (∀ (m : DBManager) (k : Key), cacheGet m.cache k = none →
      (m.backend.prepFail k = true ∨ m.backend.queryFail k = true ∨
        m.backend.rowFail k = true) →
      ∃ m', m.count k = some (some 1, m')) := by
  constructor
  · exact count_total_aux
  · intro m k hc hf
    have hcount := count_miss hc
    rw [get_of_fail hf,
      show (Option.getD (none : Option Nat) 0) = 0 from rfl, satAdd1_zero] at hcount
    exact ⟨_, hcount⟩

def failBackend : Backend :=
  ⟨fun q => if q = keyB then some 5 else none, fun q => q == keyA,
    fun _ => false, fun _ => false, fun _ _ => false⟩

def mgrF : DBManager := ⟨[], failBackend⟩

/-- Witness for C6: a backend whose statement preparation fails for the
requested key still yields a count of 1. -/
theorem count_never_fails_caller_witness :
    cacheGet mgrF.cache keyA = none ∧ mgrF.backend.prepFail keyA = true ∧
      ∃ m', mgrF.count keyA = some (some 1, m') :=
  ⟨rfl, by decide,
    count_never_fails_caller.2 mgrF keyA rfl (Or.inl (by decide))⟩

/-- C7: the sync loop attempts an upsert for every cache entry — its trace
of attempted set calls is exactly the cache snapshot, whatever the fault
pattern — and an entry whose own upsert succeeds reaches the backend
regardless of the failures of the other entries. -/
theorem sync_attempts_all_entries :
    (∀ m : DBManager, (syncEntries m.backend m.cache).2 = m.cache) ∧
    (∀ (m : DBManager) (k : Key) (v : Nat), (m.cache.map Prod.fst).Nodup →
      (k, v) ∈ m.cache → m.backend.setFail k v = false →
      ((((m.sync_to_backend).2)).backend).store k = some v) := by
  constructor
  · intro m
    exact syncEntries_trace m.cache m.backend
  · intro m k v hnd hm hf
    have hget := cacheGet_of_mem_nodup hnd hm
    have hb : ((((m.sync_to_backend).2)).backend) = (syncEntries m.backend m.cache).1 :=
      rfl
    rw [hb, syncEntries_store, lastSet_of_get_nodup hnd hget hf]

def failSetBackend : Backend :=
  ⟨fun _ => none, fun _ => false, fun _ => false, fun _ => false,
    fun q _ => q == keyX⟩

def mgrXY : DBManager := ⟨[(keyX, 5), (keyY, 7)], failSetBackend⟩

/-- Witness for C7: with the upsert of one key failing, the entry of the
other key is still written to the backend by the flush. -/
theorem sync_attempts_all_entries_witness :
    (mgrXY.cache.map Prod.fst).Nodup ∧ (keyY, 7) ∈ mgrXY.cache ∧
      mgrXY.backend.setFail keyY 7 = false ∧
      ((((mgrXY.sync_to_backend).2)).backend).store keyY = some 7 :=
  ⟨by decide, by decide, by decide,
    sync_attempts_all_entries.2 mgrXY keyY 7 (by decide) (by decide) (by decide)⟩

/-- C8: the cache increment step is saturating: below the u64 maximum it
stores and returns the old value plus one; at the maximum it stores and
returns the maximum again, with no wrap-around. -/
theorem count_on_cache_saturating :
    (∀ (m : DBManager) (k : Key) (v : Nat), cacheGet m.cache k = some v →
      v < U64MAX → ∃ m', m.count_on_cache k = some (some (v + 1), m') ∧
        cacheGet m'.cache k = some (v + 1)) ∧
    (∀ (m : DBManager) (k : Key), cacheGet m.cache k = some U64MAX →
      ∃ m', m.count_on_cache k = some (some U64MAX, m') ∧
        cacheGet m'.cache k = some U64MAX) := by
  constructor
  · intro m k v hv hlt
    have hcc : m.count_on_cache k = some (some (satAdd1 v),
        { m with cache := cacheInsert m.cache k (satAdd1 v) }) := by
      simp [DBManager.count_on_cache, hv]
    rw [satAdd1_of_lt hlt] at hcc
    exact ⟨_, hcc, cacheGet_insert_self ..⟩
  · intro m k hv
    have hcc : m.count_on_cache k = some (some (satAdd1 U64MAX),
        { m with cache := cacheInsert m.cache k (satAdd1 U64MAX) }) := by
      simp [DBManager.count_on_cache, hv]
    rw [satAdd1_maxed] at hcc
    exact ⟨_, hcc, cacheGet_insert_self ..⟩

def mgrS1 : DBManager := ⟨[(keyS, 3)], emptyBackend⟩

def mgrS2 : DBManager := ⟨[(keyB, U64MAX)], emptyBackend⟩

/-- Witness for C8: incrementing a cached 3 yields 4, and incrementing a
cached 2 ^ 64 - 1 yields 2 ^ 64 - 1 again. -/
theorem count_on_cache_saturating_witness :
    cacheGet mgrS1.cache keyS = some 3 ∧ (3 : Nat) < U64MAX ∧
      (∃ m', mgrS1.count_on_cache keyS = some (some 4, m') ∧
        cacheGet m'.cache keyS = some 4) ∧
      cacheGet mgrS2.cache keyB = some U64MAX ∧
      (∃ m', mgrS2.count_on_cache keyB = some (some U64MAX, m') ∧
        cacheGet m'.cache keyB = some U64MAX) :=
  ⟨rfl, by decide, count_on_cache_saturating.1 mgrS1 keyS 3 rfl (by decide),
    rfl, count_on_cache_saturating.2 mgrS2 keyB rfl⟩

/-- C9: sync_to_backend returns Ok for every cache state and backend
behaviour, so the error branch of the scheduler loop in main.rs that logs
a failed sync is unreachable. -/
theorem sync_to_backend_always_ok (m : DBManager) :
    (m.sync_to_backend).1 = Except.ok () ∧ schedulerSyncFailed m = false :=
  ⟨rfl, rfl⟩

/-- C10: in a sequential execution count never panics — the unwrapped cache
lookup inside count_on_cache always finds the key, because count either saw
the key in the cache or just loaded it — and never returns None. -/
theorem count_no_panic_no_none (m : DBManager) (k : Key) :
    ∃ r m', m.count k = some (some r, m') :=
  count_total_aux m k

end MoeCounter
